import Mathlib

/-!
Verification of the Session Kernel Pool and Execution Relay of the
code-sandbox MCP repository.

The development shallowly embeds the Python sources:
* `code_sandbox_mcp/server.py` — `ContainerKernelClient._process_messages`
  (the message translator), `ContainerKernelClient.execute_code` (the relay
  client) and `ContainerKernelClient.health_check` (health polling);
* `code_sandbox_mcp/container_service/kernel_service.py` — the FastAPI
  `execute_code` endpoint with its python/bash dispatch,
  `KernelManager.shutdown_kernel`, and the asyncio locking logic of
  `KernelManager.get_kernel` and `JupyterKernel.execute_raw`.

Modelling conventions:
* Python dicts are embedded as insertion-ordered association lists; `d[k]`
  is `dictGet` (with an explicit KeyError result where the source can
  fail), `del d[k]` removes the key, `list(d.keys())` is `List.map
  Prod.fst`.
* Fallible Python code is embedded in `Except String`, the error string
  standing for the raised exception.
* Library calls that are not part of the repository are modelled by small
  explicit functions and documented as such (`jsonDumpStr` for
  `json.dumps` on a textual payload, `format_exc` for
  `traceback.format_exc`, `pyStrip` for `str.strip`).
* The asyncio code is embedded as interleaving state machines: code
  between two `await` suspension points runs atomically (cooperative
  single-threaded scheduling), an `await` on a lock is a step that is only
  enabled while the lock is free, and the theorems quantify over every
  schedule (every list of scheduler choices).
-/

/-! ## String utilities (Python `in` on strings is substring containment) -/

/-- Boolean test that the first character list is an initial segment of the
second; auxiliary for substring containment. -/
def leadsWith : List Char → List Char → Bool
  | [], _ => true
  | _ :: _, [] => false
  | c :: cs, d :: ds => c == d && leadsWith cs ds

/-- Boolean substring containment on character lists: `occursIn n h` is
true when `n` occurs contiguously inside `h`; embeds Python `n in h`. -/
def occursIn (needle : List Char) : List Char → Bool
  | [] => needle.isEmpty
  | d :: ds => leadsWith needle (d :: ds) || occursIn needle ds

/-- Substring containment on strings, the embedding of Python `sub in hay`. -/
def strHasSub (hay sub : String) : Bool := occursIn sub.data hay.data

/-! ## Python dict embedding -/

/-- Lookup in an insertion-ordered association list (a Python dict read
`d[k]`; `none` is the KeyError case). -/
def dictGet {α : Type} : List (String × α) → String → Option α
  | [], _ => none
  | (k0, v) :: rest, k => if k0 = k then some v else dictGet rest k

/-- Key deletion from an association list (Python `del d[k]`; dict keys
are unique, so removing every binding of the key models the deletion). -/
def dictErase {α : Type} (l : List (String × α)) (k : String) : List (String × α) :=
  l.filter (fun kv => kv.1 != k)

/-! ## Output model (`code_sandbox_types.py`) -/

/-- One unit of interpreter output, from `KernelOutput` in
`code_sandbox_types.py`. -/
structure KernelOutput where
  mime_type : String
  content : String
  is_error : Bool
deriving DecidableEq

/-- One raw Jupyter message as read by the translator: its `msg_type`
discriminator and the three payload fields the translator touches
(`content.text` for stream events, `content.data` for display events,
`content.traceback` for error events).  Payload values of `content.data`
are carried in their textual form. -/
structure RawMessage where
  msg_type : String
  text : String
  data : List (String × String)
  traceback : List String
deriving DecidableEq

/-- Modelled from the `json` standard library: `json.dumps` applied to a
textual payload value — the value quoted with the usual escapes. -/
def jsonEscape (c : Char) : String :=
  if c == '\"' then "\\\""
  else if c == '\\' then "\\\\"
  else if c == '\n' then "\\n"
  else if c == '\t' then "\\t"
  else if c == '\r' then "\\r"
  else String.singleton c

/-- Serialization of a textual JSON payload, modelling the
`json.dumps(data["application/json"])` call in `server.py`. -/
def jsonDumpStr (s : String) : String :=
  "\"" ++ String.join (s.data.map jsonEscape) ++ "\""

/-! ## Message translator (`ContainerKernelClient._process_messages`) -/

/-- Representation selection for one `display_data` / `execute_result`
event, embedding the if/elif chain of `server.py` lines 84–117.  The
unreachable list-index arm and the KeyError arms of the guarded lookups
are kept so that the partiality of the source is visible; the final
`data["text/plain"]` lookup is the one that can actually fail. -/
def select_display_output (data : List (String × String)) : Except String KernelOutput :=
  let mime_types := data.map Prod.fst
  if mime_types.any (fun mt => occursIn "image".data mt.data) then
    match mime_types.filter (fun mt => occursIn "image".data mt.data) with
    | mt :: _ =>
      match dictGet data mt with
      | some c => .ok ⟨mt, c, false⟩
      | none => .error "KeyError"
    | [] => .error "IndexError: list index out of range"
  else if mime_types.contains "text/markdown" then
    match dictGet data "text/markdown" with
    | some c => .ok ⟨"text/markdown", c, false⟩
    | none => .error "KeyError"
  else if mime_types.contains "text/html" then
    match dictGet data "text/html" with
    | some c => .ok ⟨"text/html", c, false⟩
    | none => .error "KeyError"
  else if mime_types.contains "application/json" then
    match dictGet data "application/json" with
    | some c => .ok ⟨"application/json", jsonDumpStr c, false⟩
    | none => .error "KeyError"
  else
    match dictGet data "text/plain" with
    | some c => .ok ⟨"text/plain", c, false⟩
    | none => .error "KeyError: text/plain"

/-- The translator `ContainerKernelClient._process_messages`, folding the
raw message list into outputs in order; an uncaught Python exception is
the `Except.error` case. -/
def process_messages : List RawMessage → Except String (List KernelOutput)
  | [] => .ok []
  | m :: ms =>
    if m.msg_type == "stream" then
      (process_messages ms).map (fun outs => ⟨"text/plain", m.text, false⟩ :: outs)
    else if m.msg_type == "display_data" || m.msg_type == "execute_result" then
      match select_display_output m.data with
      | .ok out => (process_messages ms).map (fun outs => out :: outs)
      | .error e => .error e
    else if m.msg_type == "error" then
      (process_messages ms).map
        (fun outs => ⟨"text/plain", String.intercalate "\n" m.traceback, true⟩ :: outs)
    else
      process_messages ms

/-- Specification-level mime selection, written from the spec sentence:
"choose exactly one representation by priority — any mime type containing
`image`; else `text/markdown`; else `text/html`; else `application/json`
(serialized to its text form); else `text/plain`".  Returns `none` when
the event offers none of these representations. -/
def selectOutputSpec (data : List (String × String)) : Option KernelOutput :=
  match data.find? (fun kv => occursIn "image".data kv.1.data) with
  | some kv => some ⟨kv.1, kv.2, false⟩
  | none =>
    match dictGet data "text/markdown" with
    | some c => some ⟨"text/markdown", c, false⟩
    | none =>
      match dictGet data "text/html" with
      | some c => some ⟨"text/html", c, false⟩
      | none =>
        match dictGet data "application/json" with
        | some c => some ⟨"application/json", jsonDumpStr c, false⟩
        | none => (dictGet data "text/plain").map (fun c => ⟨"text/plain", c, false⟩)

/-! ## Lemmas about the dict embedding -/

lemma dictGet_some_mem {α : Type} (l : List (String × α)) (k : String) (v : α)
    (h : dictGet l k = some v) : k ∈ l.map Prod.fst := by
  induction l with
  | nil => simp [dictGet] at h
  | cons hd tl ih =>
    rw [dictGet] at h
    by_cases hk : hd.1 = k
    · simp [hk]
    · rw [if_neg hk] at h
      simp [ih h]

lemma mem_dictGet {α : Type} (l : List (String × α)) (k : String)
    (h : k ∈ l.map Prod.fst) : ∃ v, dictGet l k = some v := by
  induction l with
  | nil => simp at h
  | cons hd tl ih =>
    rw [List.map_cons, List.mem_cons] at h
    by_cases hk : hd.1 = k
    · exact ⟨hd.2, by rw [dictGet, if_pos hk]⟩
    · have : k ∈ tl.map Prod.fst := by
        cases h with
        | inl h => exact absurd h.symm hk
        | inr h => exact h
      obtain ⟨v, hv⟩ := ih this
      exact ⟨v, by rw [dictGet, if_neg hk, hv]⟩

lemma dictGet_contains_true {α : Type} (l : List (String × α)) (k : String) (v : α)
    (h : dictGet l k = some v) : (l.map Prod.fst).contains k = true := by
  have := dictGet_some_mem l k v h
  simpa [List.contains] using this

lemma dictGet_contains_false {α : Type} (l : List (String × α)) (k : String)
    (h : dictGet l k = none) : (l.map Prod.fst).contains k = false := by
  by_contra hc
  have hmem : k ∈ l.map Prod.fst := by
    simpa [List.contains] using hc
  obtain ⟨v, hv⟩ := mem_dictGet l k hmem
  rw [h] at hv
  exact Option.noConfusion hv


lemma not_true_of_eq_false {b : Bool} (h : b = false) : ¬ (b = true) := by
  simp [h]

/-- The first pair whose key satisfies a predicate also yields the head of
the filtered key list, and looking its key up returns its value. -/
lemma find?_filter_head (p : String → Bool) (data : List (String × String))
    (kv : String × String) (h : data.find? (fun e => p e.1) = some kv) :
    ∃ rest, (data.map Prod.fst).filter p = kv.1 :: rest ∧
      dictGet data kv.1 = some kv.2 := by
  induction data with
  | nil => simp at h
  | cons hd tl ih =>
    obtain ⟨k0, v0⟩ := hd
    cases hp : p k0 with
    | true =>
      have hfind := List.find?_cons_of_pos (p := fun e : String × String => p e.1)
        (a := (k0, v0)) tl (by simpa using hp)
      rw [hfind] at h
      obtain rfl : (k0, v0) = kv := by injection h
      refine ⟨(tl.map Prod.fst).filter p, ?_, ?_⟩
      · rw [List.map_cons, List.filter_cons, if_pos hp]
      · rw [dictGet, if_pos rfl]
    | false =>
      have hfind := List.find?_cons_of_neg (p := fun e : String × String => p e.1)
        (a := (k0, v0)) tl (by simp [hp])
      rw [hfind] at h
      obtain ⟨rest, hfil, hget⟩ := ih h
      have hkvp0 := List.find?_some h
      have hkvp : p kv.1 = true := hkvp0
      have hne : k0 ≠ kv.1 := by
        intro he
        rw [← he] at hkvp
        rw [hp] at hkvp
        exact Bool.noConfusion hkvp
      refine ⟨rest, ?_, ?_⟩
      · rw [List.map_cons, List.filter_cons, if_neg (by simp [hp])]
        exact hfil
      · rw [dictGet, if_neg hne]
        exact hget

/-- Refinement: whenever the spec-level priority table selects an output,
the source's if/elif chain produces exactly that output. -/
lemma selectOutputSpec_refines (data : List (String × String)) (out : KernelOutput)
    (h : selectOutputSpec data = some out) :
    select_display_output data = .ok out := by
  unfold selectOutputSpec at h
  unfold select_display_output
  cases hf : data.find? (fun kv => occursIn "image".data kv.1.data) with
  | some kv =>
    rw [hf] at h
    have hout : (⟨kv.1, kv.2, false⟩ : KernelOutput) = out := by injection h
    obtain ⟨rest, hfil, hget⟩ :=
      find?_filter_head (fun mt => occursIn "image".data mt.data) data kv hf
    have hkvp0 := List.find?_some hf
    have hkvp : occursIn "image".data kv.1.data = true := hkvp0
    have hany : (data.map Prod.fst).any (fun mt => occursIn "image".data mt.data) = true :=
      List.any_eq_true.mpr
        ⟨kv.1, List.mem_map_of_mem Prod.fst (List.mem_of_find?_eq_some hf), hkvp⟩
    rw [if_pos hany, hfil, ← hout]
    show (match dictGet data kv.1 with
          | some c => Except.ok (KernelOutput.mk kv.1 c false)
          | none => Except.error "KeyError") =
        Except.ok (KernelOutput.mk kv.1 kv.2 false)
    rw [hget]
  | none =>
    rw [hf] at h
    have hnone : ∀ kv ∈ data, ¬ occursIn "image".data kv.1.data := by
      simpa using List.find?_eq_none.mp hf
    have hnoimg : (data.map Prod.fst).any (fun mt => occursIn "image".data mt.data) = false := by
      rw [List.any_eq_false]
      intro mt hmt
      obtain ⟨kv, hkv, rfl⟩ := List.mem_map.mp hmt
      exact hnone kv hkv
    rw [if_neg (not_true_of_eq_false hnoimg)]
    cases hmd : dictGet data "text/markdown" with
    | some c =>
      rw [hmd] at h
      have h2 : some (⟨"text/markdown", c, false⟩ : KernelOutput) = some out := h
      have hout : (⟨"text/markdown", c, false⟩ : KernelOutput) = out := by injection h2
      rw [if_pos (dictGet_contains_true data _ c hmd), ← hout]
    | none =>
      rw [hmd] at h
      rw [if_neg (not_true_of_eq_false (dictGet_contains_false data _ hmd))]
      cases hht : dictGet data "text/html" with
      | some c =>
        rw [hht] at h
        have h2 : some (⟨"text/html", c, false⟩ : KernelOutput) = some out := h
        have hout : (⟨"text/html", c, false⟩ : KernelOutput) = out := by injection h2
        rw [if_pos (dictGet_contains_true data _ c hht), ← hout]
      | none =>
        rw [hht] at h
        rw [if_neg (not_true_of_eq_false (dictGet_contains_false data _ hht))]
        cases hjs : dictGet data "application/json" with
        | some c =>
          rw [hjs] at h
          have h2 : some (⟨"application/json", jsonDumpStr c, false⟩ : KernelOutput) = some out := h
          have hout : (⟨"application/json", jsonDumpStr c, false⟩ : KernelOutput) = out := by
            injection h2
          rw [if_pos (dictGet_contains_true data _ c hjs), ← hout]
        | none =>
          rw [hjs] at h
          rw [if_neg (not_true_of_eq_false (dictGet_contains_false data _ hjs))]
          cases hpl : dictGet data "text/plain" with
          | some c =>
            rw [hpl] at h
            have h2 : some (⟨"text/plain", c, false⟩ : KernelOutput) = some out := h
            have hout : (⟨"text/plain", c, false⟩ : KernelOutput) = out := by injection h2
            rw [← hout]
          | none =>
            rw [hpl] at h
            have h2 : (none : Option KernelOutput) = some out := h
            exact Option.noConfusion h2

/-- A display event offers a listed representation when some key contains
`image` or equals one of the four textual mime types of the priority
chain. -/
def offersListed (data : List (String × String)) : Bool :=
  (data.map Prod.fst).any (fun mt =>
    occursIn "image".data mt.data || mt == "text/markdown" || mt == "text/html" ||
      mt == "application/json" || mt == "text/plain")

/-- On data offering at least one listed representation, the spec-level
priority table always selects an output. -/
lemma selectOutputSpec_total (data : List (String × String))
    (hoff : offersListed data = true) :
    ∃ out, selectOutputSpec data = some out := by
  unfold selectOutputSpec
  cases hf : data.find? (fun kv => occursIn "image".data kv.1.data) with
  | some kv => exact ⟨_, rfl⟩
  | none =>
    have hnone : ∀ kv ∈ data, ¬ occursIn "image".data kv.1.data := by
      simpa using List.find?_eq_none.mp hf
    obtain ⟨mt, hmem, hor⟩ := List.any_eq_true.mp hoff
    have himgf : ¬ occursIn "image".data mt.data = true := by
      obtain ⟨kv, hkv, rfl⟩ := List.mem_map.mp hmem
      exact hnone kv hkv
    simp only [Bool.or_eq_true, beq_iff_eq] at hor
    cases hmd : dictGet data "text/markdown" with
    | some c => exact ⟨_, rfl⟩
    | none =>
      cases hht : dictGet data "text/html" with
      | some c => exact ⟨_, rfl⟩
      | none =>
        cases hjs : dictGet data "application/json" with
        | some c => exact ⟨_, rfl⟩
        | none =>
          cases hpl : dictGet data "text/plain" with
          | some c => exact ⟨_, rfl⟩
          | none =>
            exfalso
            rcases hor with ((((himg | hmt) | hmt) | hmt) | hmt)
            · exact himgf himg
            · obtain ⟨v, hv⟩ := mem_dictGet data "text/markdown" (hmt ▸ hmem)
              rw [hmd] at hv
              exact Option.noConfusion hv
            · obtain ⟨v, hv⟩ := mem_dictGet data "text/html" (hmt ▸ hmem)
              rw [hht] at hv
              exact Option.noConfusion hv
            · obtain ⟨v, hv⟩ := mem_dictGet data "application/json" (hmt ▸ hmem)
              rw [hjs] at hv
              exact Option.noConfusion hv
            · obtain ⟨v, hv⟩ := mem_dictGet data "text/plain" (hmt ▸ hmem)
              rw [hpl] at hv
              exact Option.noConfusion hv

/-- C3: for every display_data or execute_result event, the translator
selects exactly one representation by the priority order: any mime type
containing "image" first; else "text/markdown"; else "text/html"; else
"application/json" (serialized to text via a JSON dump); else
"text/plain" — formalized as: whenever the spec-level priority table
(`selectOutputSpec`, written from the spec sentence) selects an output,
the translator emits exactly that single output for the event. -/
theorem display_event_mime_priority (m : RawMessage)
    (hty : m.msg_type = "display_data" ∨ m.msg_type = "execute_result")
    (out : KernelOutput) (hsel : selectOutputSpec m.data = some out) :
    process_messages [m] = .ok [out] := by
  have hsd := selectOutputSpec_refines m.data out hsel
  cases hty with
  | inl h => simp [process_messages, h, hsd, Except.map]
  | inr h => simp [process_messages, h, hsd, Except.map]

/-- Witness for C3: the event offering text/plain "x" and image/png "y"
yields exactly one output, with mime type image/png and content "y". -/
theorem display_event_mime_priority_witness :
    process_messages [⟨"display_data", "", [("text/plain", "x"), ("image/png", "y")], []⟩] =
      .ok [⟨"image/png", "y", false⟩] :=
  display_event_mime_priority _ (Or.inl rfl) _ (by decide)

/-- Counterexample for C4: on a display_data event whose data offers none
of the listed mime types, the translator does not emit an output — the
final `data["text/plain"]` lookup of the source raises a KeyError. -/
theorem display_event_translation_keyerror_cex :
    process_messages [⟨"display_data", "", [("application/pdf", "z")], []⟩] =
      .error "KeyError: text/plain" := by
  rfl

/-- C4 (amended): mime-type selection emits exactly one Output and never
fails for every display_data or execute_result event whose data offers at
least one listed representation (an image mime type, text/markdown,
text/html, application/json or text/plain); for a data set offering none
of these the translation fails with a KeyError instead. -/
theorem display_event_translation_total (m : RawMessage)
    (hty : m.msg_type = "display_data" ∨ m.msg_type = "execute_result")
    (hoff : offersListed m.data = true) :
    ∃ out, process_messages [m] = .ok [out] := by
  obtain ⟨out, hsel⟩ := selectOutputSpec_total m.data hoff
  have hsd := selectOutputSpec_refines m.data out hsel
  refine ⟨out, ?_⟩
  cases hty with
  | inl h => simp [process_messages, h, hsd, Except.map]
  | inr h => simp [process_messages, h, hsd, Except.map]

/-- Witness for C4 (amended): an execute_result event offering only
text/plain still yields exactly one output. -/
theorem display_event_translation_total_witness :
    ∃ out, process_messages [⟨"execute_result", "", [("text/plain", "2")], []⟩] = .ok [out] :=
  display_event_translation_total _ (Or.inr rfl) (by decide)

/-- C5: every error event contributes exactly one Output with mime type
text/plain, content the traceback lines joined by newlines in order, and
is_error true; the event never makes the translation fail (the
surrounding execution still completes successfully). -/
theorem error_event_translation (m : RawMessage) (h : m.msg_type = "error")
    (rest : List RawMessage) :
    process_messages (m :: rest) =
      (process_messages rest).map
        (fun outs => ⟨"text/plain", String.intercalate "\n" m.traceback, true⟩ :: outs) := by
  simp [process_messages, h]

/-- Witness for C5: traceback lines ["a", "b"] yield the single output
with content "a\nb" and the error flag set. -/
theorem error_event_translation_witness :
    process_messages [⟨"error", "", [], ["a", "b"]⟩] =
      .ok [⟨"text/plain", "a\nb", true⟩] := by
  rw [error_event_translation _ rfl]
  rfl

/-! ## Kernel service endpoint (`kernel_service.py`) -/

/-- The request body of the /execute endpoint (`ExecuteRequest` in
`kernel_service.py`). -/
structure ExecuteRequest where
  kernel_id : String
  code : String
  language : String
deriving DecidableEq

/-- The response body of the /execute endpoint (`ExecuteResponse` in
`kernel_service.py`); also the parsed JSON body the relay client reads. -/
structure ExecuteResponse where
  success : Bool
  messages : List RawMessage
  error : Option String
deriving DecidableEq

/-- The one exception the endpoint dispatch raises itself: the
`HTTPException(status_code=400, detail=...)` for an unsupported
language. -/
inductive PyExc where
  | httpException (status : Nat) (detail : String)
deriving DecidableEq

/-- Modelled from the `traceback` standard library: `format_exc` rendered
for the one exception the dispatch raises — a non-empty traceback text
carrying the exception's own message. -/
def format_exc : PyExc → String
  | .httpException status detail =>
    "Traceback (most recent call last):\nfastapi.exceptions.HTTPException: " ++
      toString status ++ ": " ++ detail ++ "\n"

/-- Modelled from the Python `str.strip` builtin: removal of leading and
trailing whitespace characters (the ASCII whitespace set). -/
def pyIsSpace (c : Char) : Bool :=
  c == ' ' || c == '\t' || c == '\n' || c == '\r' || c == '\x0b' || c == '\x0c'

/-- Python `code.strip()` on the character-list view of the string. -/
def pyStrip (s : String) : String :=
  ⟨((s.data.dropWhile pyIsSpace).reverse.dropWhile pyIsSpace).reverse⟩

/-- `execute_python_code`: run the request's code on the kernel and return
every raw message with success.  The kernel is abstracted as the oracle
`run` from submitted code to the raw messages its execution yields. -/
def execute_python_code (run : String → List RawMessage) (req : ExecuteRequest) :
    ExecuteResponse :=
  ⟨true, run req.code, none⟩

/-- `execute_shell_code`: strip the code, wrap multi-line code in the
`%%bash` cell magic and single-line code in the `!` shell escape, then run
it through the same kernel as python code. -/
def execute_shell_code (run : String → List RawMessage) (req : ExecuteRequest) :
    ExecuteResponse :=
  let code := pyStrip req.code
  let jupyter_code := if occursIn "\n".data code.data then "%%bash\n" ++ code else "!" ++ code
  ⟨true, run jupyter_code, none⟩

/-- The `/execute` endpoint `execute_code` of `kernel_service.py`: the
language dispatch runs inside a `try` whose generic `except Exception`
handler turns any raised exception — including the 400 `HTTPException`
for an unsupported language — into a normal HTTP 200 response with
`success=false`, no messages and the exception traceback as error text. -/
def execute_code_endpoint (run : String → List RawMessage) (req : ExecuteRequest) :
    Nat × ExecuteResponse :=
  match (if req.language = "python" then Except.ok (execute_python_code run req)
         else if req.language = "bash" then Except.ok (execute_shell_code run req)
         else Except.error (PyExc.httpException 400 ("Unsupported language: " ++ req.language))) with
  | .ok r => (200, r)
  | .error e => (200, ⟨false, [], some (format_exc e)⟩)

/-- Specification-level description of the bash rewriting of C10: the code
first stripped of surrounding whitespace, then prefixed with the
`%%bash` cell magic when it contains a newline and with `!` otherwise. -/
def bashRewriteSpec (code : String) : String :=
  let stripped := pyStrip code
  if occursIn "\n".data stripped.data then "%%bash\n" ++ stripped else "!" ++ stripped

/-! ## Relay client (`ContainerKernelClient.execute_code`) -/

/-- An HTTP response to the relay client's POST of the execute request:
status code, raw response text (read in the non-200 branch) and parsed
JSON body.  A JSON `null` error field is modelled as absence. -/
structure HttpResponse where
  status : Nat
  text : String
  body : ExecuteResponse
deriving DecidableEq

/-- The exceptions `ContainerKernelClient.execute_code` raises, tagged by
raise site: the non-200 branch, the `success=false` branch, and a KeyError
escaping `_process_messages`. -/
inductive RelayError where
  | containerService (t : String)
  | execFailed (t : String)
  | translatorKeyError (e : String)
deriving DecidableEq

/-- The message string of each raised exception, as built by the
f-strings of the source. -/
def relayErrorMessage : RelayError → String
  | .containerService t => "Container service error: " ++ t
  | .execFailed t => "Execution failed: " ++ t
  | .translatorKeyError e => e

/-- Python `result.get("error", "Unknown error")` on the modelled body. -/
def pyGet (o : Option String) (dflt : String) : String := o.getD dflt

/-- The relay client `ContainerKernelClient.execute_code`, given the HTTP
response the environment produced for the serialized request: non-200
responses and `success=false` bodies raise; a successful body is fed
through the message translator. -/
def client_execute_code (resp : HttpResponse) : Except RelayError (List KernelOutput) :=
  if resp.status ≠ 200 then .error (.containerService resp.text)
  else if resp.body.success = false then
    .error (.execFailed (pyGet resp.body.error "Unknown error"))
  else
    match process_messages resp.body.messages with
    | .ok outs => .ok outs
    | .error e => .error (.translatorKeyError e)

/-! ## Health polling (`ContainerKernelClient.health_check`) -/

/-- The polling loop of `health_check`: `t` is the elapsed time since
`start_time`, `k` numbers the probe attempts, `probe k` tells whether the
k-th GET of `/health` returns status 200, and `dur k` models the real
time that attempt consumes (each attempt is bounded by the source's 5 s
client timeout); the `+ 1` is the fixed `asyncio.sleep(1)` polling
interval between attempts.  The loop re-checks `t < timeout` before every
attempt and returns `false` with the elapsed time once the bound is
reached. -/
def health_check_loop (probe : Nat → Bool) (dur : Nat → Nat) (timeout t k : Nat) :
    Bool × Nat :=
  if h : t < timeout then
    if probe k then (true, t + dur k)
    else health_check_loop probe dur timeout (t + dur k + 1) (k + 1)
  else (false, t)
termination_by timeout - t
decreasing_by omega

/-- `ContainerKernelClient.health_check` started at elapsed time 0 with
the first attempt. -/
def health_check (probe : Nat → Bool) (dur : Nat → Nat) (timeout : Nat) : Bool × Nat :=
  health_check_loop probe dur timeout 0 0

/-- The default of the `timeout` parameter of `health_check`. -/
def HEALTH_DEFAULT_TIMEOUT : Nat := 60

/-- Elapsed time at which attempt `k` starts when the loop begins with
attempt `k0` at time 0: each earlier attempt consumes its duration plus
the 1 s sleep. -/
def attemptStartFrom (dur : Nat → Nat) : Nat → Nat → Nat
  | _, 0 => 0
  | k0, k + 1 => dur k0 + 1 + attemptStartFrom dur (k0 + 1) k

/-! ## Kernel pool shutdown (`KernelManager.shutdown_kernel`) -/

/-- The two registries of `KernelManager`: the session map `kernels`
(kernel handles stand in as numbers) and the per-identifier lock map
`_kernel_locks` (only the key set matters for shutdown). -/
structure KernelManagerState where
  kernels : List (String × Nat)
  kernel_locks : List String
deriving DecidableEq

/-- `KernelManager.shutdown_kernel`: when the identifier is present, shut
its kernel down (returned in the effect list), delete it from the session
map, and delete its per-id lock when present; otherwise do nothing. -/
def shutdown_kernel (s : KernelManagerState) (kernel_id : String) :
    KernelManagerState × List Nat :=
  match dictGet s.kernels kernel_id with
  | some k =>
    (⟨dictErase s.kernels kernel_id,
      if s.kernel_locks.contains kernel_id then
        s.kernel_locks.filter (fun x => x != kernel_id)
      else s.kernel_locks⟩, [k])
  | none => (s, [])

/-! ## Substring lemmas -/

lemma leadsWith_append (s post : List Char) : leadsWith s (s ++ post) = true := by
  induction s with
  | nil => rfl
  | cons c cs ih => simp [leadsWith, ih]

lemma occursIn_self_append (s post : List Char) : occursIn s (s ++ post) = true := by
  cases s with
  | nil =>
    cases post with
    | nil => rfl
    | cons d ds => simp [occursIn, leadsWith]
  | cons c cs =>
    have h1 : leadsWith (c :: cs) ((c :: cs) ++ post) = true := leadsWith_append (c :: cs) post
    show (leadsWith (c :: cs) ((c :: cs) ++ post) || occursIn (c :: cs) (cs ++ post)) = true
    rw [h1]
    rfl

lemma occursIn_append_left (s pre l : List Char) (h : occursIn s l = true) :
    occursIn s (pre ++ l) = true := by
  induction pre with
  | nil => simpa using h
  | cons d ds ih => simp [occursIn, ih]

lemma strHasSub_sandwich (pre s post : String) :
    strHasSub (pre ++ s ++ post) s = true := by
  unfold strHasSub
  rw [String.data_append, String.data_append, List.append_assoc]
  exact occursIn_append_left _ _ _ (occursIn_self_append _ _)

lemma str_append_ne_empty_left (a b : String) (h : a ≠ "") : a ++ b ≠ "" := by
  intro he
  apply h
  have hd := congrArg String.data he
  rw [String.data_append] at hd
  obtain ⟨ha, _⟩ := List.append_eq_nil.mp hd
  cases a with
  | mk l =>
    simp only [String.data] at ha
    rw [ha]

/-- C6: on an HTTP 200 response, a success=false body makes the relay
client raise an error whose message contains the environment's reported
error text verbatim, and the translator result is returned exactly when
the body is successful (the raw messages are fed through the message
translator in that case and only in that case). -/
theorem relay_execute_code_spec (resp : HttpResponse) (h200 : resp.status = 200) :
    (resp.body.success = false → ∀ t, resp.body.error = some t →
      ∃ e, client_execute_code resp = .error e ∧
        strHasSub (relayErrorMessage e) t = true)
    ∧ (resp.body.success = true →
      client_execute_code resp =
        (process_messages resp.body.messages).mapError RelayError.translatorKeyError)
    ∧ (∀ outs, client_execute_code resp = .ok outs →
      resp.body.success = true ∧ process_messages resp.body.messages = .ok outs) := by
  unfold client_execute_code
  rw [if_neg (by simp [h200])]
  refine ⟨?_, ?_, ?_⟩
  · intro hf t ht
    rw [if_pos hf, ht]
    refine ⟨_, rfl, ?_⟩
    show strHasSub ("Execution failed: " ++ t) t = true
    have h1 := strHasSub_sandwich "Execution failed: " t ""
    rw [String.append_empty] at h1
    exact h1
  · intro ht
    rw [if_neg (by simp [ht])]
    cases hp : process_messages resp.body.messages with
    | ok outs => rfl
    | error e => rfl
  · intro outs hok
    cases hsucc : resp.body.success with
    | false =>
      rw [if_pos hsucc] at hok
      exact absurd hok (by simp)
    | true =>
      rw [if_neg (by simp [hsucc])] at hok
      refine ⟨rfl, ?_⟩
      cases hp : process_messages resp.body.messages with
      | ok outs2 =>
        rw [hp] at hok
        have h2 : Except.ok (ε := RelayError) outs2 = Except.ok outs := hok
        injection h2 with h2
        rw [h2]
      | error e =>
        rw [hp] at hok
        exact absurd hok (by simp)

/-- Witness for C6: the response body with success false and error "boom"
makes the client raise an error whose message contains "boom". -/
theorem relay_execute_code_spec_witness :
    ∃ e, client_execute_code ⟨200, "", ⟨false, [], some "boom"⟩⟩ = .error e ∧
      strHasSub (relayErrorMessage e) "boom" = true :=
  (relay_execute_code_spec ⟨200, "", ⟨false, [], some "boom"⟩⟩ rfl).1 rfl "boom" rfl

/-! ## Health-check lemmas -/

lemma health_check_loop_false_ge (probe : Nat → Bool) (dur : Nat → Nat) (timeout : Nat) :
    ∀ n t k, timeout - t ≤ n →
      (health_check_loop probe dur timeout t k).1 = false →
      timeout ≤ (health_check_loop probe dur timeout t k).2 := by
  intro n
  induction n with
  | zero =>
    intro t k hn hf
    rw [health_check_loop, dif_neg (by omega)]
    omega
  | succ n ih =>
    intro t k hn hf
    by_cases hlt : t < timeout
    · rw [health_check_loop, dif_pos hlt] at hf ⊢
      cases hp : probe k with
      | true =>
        rw [hp] at hf
        simp at hf
      | false =>
        rw [hp] at hf
        simp only [if_neg Bool.false_ne_true] at hf ⊢
        exact ih (t + dur k + 1) (k + 1) (by omega) hf
    · rw [health_check_loop, dif_neg hlt]
      omega

lemma health_check_loop_fst_false (probe : Nat → Bool) (dur : Nat → Nat) (timeout : Nat)
    (hprobe : ∀ j, probe j = false) :
    ∀ n t k, timeout - t ≤ n → (health_check_loop probe dur timeout t k).1 = false := by
  intro n
  induction n with
  | zero =>
    intro t k hn
    rw [health_check_loop, dif_neg (by omega)]
  | succ n ih =>
    intro t k hn
    by_cases hlt : t < timeout
    · rw [health_check_loop, dif_pos hlt, hprobe k,
        if_neg Bool.false_ne_true]
      exact ih (t + dur k + 1) (k + 1) (by omega)
    · rw [health_check_loop, dif_neg hlt]

lemma health_check_loop_success (probe : Nat → Bool) (dur : Nat → Nat) (timeout : Nat) :
    ∀ k k0 t, (∀ j, j < k → probe (k0 + j) = false) → probe (k0 + k) = true →
      t + attemptStartFrom dur k0 k < timeout →
      (health_check_loop probe dur timeout t k0).1 = true := by
  intro k
  induction k with
  | zero =>
    intro k0 t hfail hsucc htime
    have hp : probe k0 = true := by simpa using hsucc
    rw [health_check_loop, dif_pos (by simp [attemptStartFrom] at htime; omega), hp,
      if_pos rfl]
  | succ k ih =>
    intro k0 t hfail hsucc htime
    have hstart : attemptStartFrom dur k0 (k + 1) =
        dur k0 + 1 + attemptStartFrom dur (k0 + 1) k := rfl
    rw [hstart] at htime
    have hp0 : probe k0 = false := by simpa using hfail 0 (Nat.succ_pos k)
    rw [health_check_loop, dif_pos (by omega), hp0, if_neg Bool.false_ne_true]
    refine ih (k0 + 1) (t + dur k0 + 1) ?_ ?_ (by omega)
    · intro j hj
      have := hfail (j + 1) (by omega)
      have he : k0 + (j + 1) = k0 + 1 + j := by omega
      rw [he] at this
      exact this
    · have he : k0 + (k + 1) = k0 + 1 + k := by omega
      rw [he] at hsucc
      exact hsucc

/-- C7: health polling with a probe that never succeeds returns the
boolean false (it is a total function, so it neither raises nor hangs)
with an elapsed time at or after the configured timeout; a false result
is never returned before the timeout has elapsed; a probe attempt that
runs within the bound and succeeds makes the poll return true; and the
default timeout is 60 seconds.  The fixed 1-second interval between
attempts is the `+ 1` of the loop. -/
theorem health_polling_bounded (probe : Nat → Bool) (dur : Nat → Nat) (timeout : Nat) :
    ((∀ j, probe j = false) →
      ∃ e, health_check probe dur timeout = (false, e) ∧ timeout ≤ e)
    ∧ ((health_check probe dur timeout).1 = false →
      timeout ≤ (health_check probe dur timeout).2)
    ∧ (∀ k, (∀ j, j < k → probe j = false) → probe k = true →
      attemptStartFrom dur 0 k < timeout → (health_check probe dur timeout).1 = true)
    ∧ HEALTH_DEFAULT_TIMEOUT = 60 := by
  refine ⟨?_, ?_, ?_, rfl⟩
  · intro hprobe
    have hf := health_check_loop_fst_false probe dur timeout hprobe timeout 0 0 (by omega)
    have hge := health_check_loop_false_ge probe dur timeout timeout 0 0 (by omega) hf
    refine ⟨(health_check probe dur timeout).2, ?_, hge⟩
    unfold health_check at hf ⊢
    rw [← hf]
  · intro hf
    exact health_check_loop_false_ge probe dur timeout timeout 0 0 (by omega) hf
  · intro k hfail hsucc htime
    refine health_check_loop_success probe dur timeout k 0 0 ?_ (by simpa using hsucc)
      (by simpa using htime)
    intro j hj
    simpa using hfail j hj

/-- Witness for C7: with a probe that never succeeds and a 3 second
timeout, polling returns false at or after 3 elapsed seconds. -/
theorem health_polling_bounded_witness :
    ∃ e, health_check (fun _ => false) (fun _ => 0) 3 = (false, e) ∧ 3 ≤ e :=
  (health_polling_bounded (fun _ => false) (fun _ => 0) 3).1 (fun _ => rfl)

/-! ## Kernel pool shutdown lemmas -/

lemma dictGet_dictErase {α : Type} (l : List (String × α)) (k : String) :
    dictGet (dictErase l k) k = none := by
  induction l with
  | nil => rfl
  | cons hd tl ih =>
    obtain ⟨k0, v0⟩ := hd
    by_cases hk : k0 = k
    · simp only [dictErase, List.filter_cons] at ih ⊢
      rw [if_neg (by simp [hk])]
      exact ih
    · simp only [dictErase, List.filter_cons] at ih ⊢
      rw [if_pos (by simp [hk])]
      rw [dictGet, if_neg hk]
      exact ih

lemma contains_filter_ne (l : List String) (a : String) :
    (l.filter (fun x => x != a)).contains a = false := by
  induction l with
  | nil => rfl
  | cons hd tl ih =>
    rw [List.filter_cons]
    by_cases hk : hd = a
    · rw [if_neg (by simp [hk])]
      exact ih
    · rw [if_pos (by simp [hk])]
      simp only [List.contains_cons, ih, Bool.or_false]
      simp [Ne.symm hk]

/-- C8: shutting down an identifier that is absent from the session pool
is a no-op — the call does not raise, returns no shutdown effect and
leaves the session map and the per-identifier lock map unchanged; for a
present identifier the kernel is shut down and both the session and its
per-id lock are removed. -/
theorem shutdown_kernel_idempotent_frame (s : KernelManagerState) (kernel_id : String) :
    (dictGet s.kernels kernel_id = none → shutdown_kernel s kernel_id = (s, []))
    ∧ (∀ k, dictGet s.kernels kernel_id = some k →
      (shutdown_kernel s kernel_id).2 = [k]
      ∧ dictGet (shutdown_kernel s kernel_id).1.kernels kernel_id = none
      ∧ (shutdown_kernel s kernel_id).1.kernel_locks.contains kernel_id = false) := by
  constructor
  · intro h
    unfold shutdown_kernel
    rw [h]
  · intro k h
    unfold shutdown_kernel
    rw [h]
    refine ⟨rfl, dictGet_dictErase s.kernels kernel_id, ?_⟩
    show (if s.kernel_locks.contains kernel_id = true then
        s.kernel_locks.filter (fun x => x != kernel_id)
      else s.kernel_locks).contains kernel_id = false
    cases hc : s.kernel_locks.contains kernel_id with
    | true =>
      rw [if_pos rfl]
      exact contains_filter_ne s.kernel_locks kernel_id
    | false =>
      rw [if_neg Bool.false_ne_true]
      exact hc

/-- Witness for C8: shutting down the never-created identifier "b" leaves
the pool holding "a" untouched and shuts nothing down. -/
theorem shutdown_kernel_idempotent_frame_witness :
    shutdown_kernel ⟨[("a", 1)], ["a"]⟩ "b" = (⟨[("a", 1)], ["a"]⟩, []) :=
  (shutdown_kernel_idempotent_frame ⟨[("a", 1)], ["a"]⟩ "b").1 rfl

/-- C9: a request whose language is neither python nor bash does not make
the endpoint return an HTTP error status: the 400 HTTPException raised
for the unsupported language is caught by the endpoint's generic handler,
and the caller receives a normal HTTP 200 response with success=false, an
empty message list and a non-empty error string containing the exception
traceback. -/
theorem unsupported_language_is_soft_error (run : String → List RawMessage)
    (req : ExecuteRequest) (hpy : req.language ≠ "python") (hbash : req.language ≠ "bash") :
    (execute_code_endpoint run req).1 = 200
    ∧ (execute_code_endpoint run req).2.success = false
    ∧ (execute_code_endpoint run req).2.messages = []
    ∧ ∃ err, (execute_code_endpoint run req).2.error = some err ∧ err ≠ ""
      ∧ strHasSub err ("Unsupported language: " ++ req.language) = true := by
  unfold execute_code_endpoint
  rw [if_neg hpy, if_neg hbash]
  refine ⟨rfl, rfl, rfl,
    format_exc (.httpException 400 ("Unsupported language: " ++ req.language)), rfl, ?_, ?_⟩
  · unfold format_exc
    apply str_append_ne_empty_left
    apply str_append_ne_empty_left
    apply str_append_ne_empty_left
    apply str_append_ne_empty_left
    decide
  · unfold format_exc
    exact strHasSub_sandwich _ _ _

/-- Witness for C9: a "ruby" request gets HTTP 200, success=false, no
messages and a non-empty traceback error text. -/
theorem unsupported_language_is_soft_error_witness :
    (execute_code_endpoint (fun _ => []) ⟨"k", "1+1", "ruby"⟩).1 = 200
    ∧ (execute_code_endpoint (fun _ => []) ⟨"k", "1+1", "ruby"⟩).2.success = false
    ∧ (execute_code_endpoint (fun _ => []) ⟨"k", "1+1", "ruby"⟩).2.messages = []
    ∧ ∃ err, (execute_code_endpoint (fun _ => []) ⟨"k", "1+1", "ruby"⟩).2.error = some err
      ∧ err ≠ "" ∧ strHasSub err ("Unsupported language: " ++ "ruby") = true :=
  unsupported_language_is_soft_error (fun _ => []) ⟨"k", "1+1", "ruby"⟩
    (by decide) (by decide)

/-! ## Strip lemmas for the bash rewriting -/

lemma dropWhile_head?_not (p : Char → Bool) (l : List Char) :
    ∀ c, (l.dropWhile p).head? = some c → p c = false := by
  induction l with
  | nil =>
    intro c h
    simp at h
  | cons d ds ih =>
    intro c h
    rw [List.dropWhile_cons] at h
    by_cases hp : p d
    · rw [if_pos hp] at h
      exact ih c h
    · rw [if_neg hp] at h
      injection h with h
      rw [← h]
      cases hpd : p d with
      | true => exact absurd hpd hp
      | false => rfl

lemma getLast?_dropWhile (p : Char → Bool) (l : List Char)
    (h : l.dropWhile p ≠ []) : (l.dropWhile p).getLast? = l.getLast? := by
  induction l with
  | nil => exact absurd rfl h
  | cons d ds ih =>
    rw [List.dropWhile_cons] at h ⊢
    by_cases hp : p d
    · rw [if_pos hp] at h ⊢
      rw [ih h]
      have hds : ds ≠ [] := by
        intro he
        rw [he] at h
        exact h rfl
      cases ds with
      | nil => exact absurd rfl hds
      | cons e es => rw [List.getLast?_cons_cons]
    · rw [if_neg hp]

lemma pyStrip_head_not_space (s : String) :
    (pyStrip s).data.head?.all (fun c => !pyIsSpace c) = true := by
  show (((s.data.dropWhile pyIsSpace).reverse.dropWhile pyIsSpace).reverse).head?.all
    (fun c => !pyIsSpace c) = true
  by_cases hb : ((s.data.dropWhile pyIsSpace).reverse.dropWhile pyIsSpace) = []
  · rw [hb]
    rfl
  · rw [List.head?_reverse, getLast?_dropWhile _ _ hb, List.getLast?_reverse]
    cases hh : (s.data.dropWhile pyIsSpace).head? with
    | none => rfl
    | some c =>
      have hc := dropWhile_head?_not pyIsSpace s.data c hh
      simp [Option.all, hc]

lemma pyStrip_last_not_space (s : String) :
    (pyStrip s).data.getLast?.all (fun c => !pyIsSpace c) = true := by
  show (((s.data.dropWhile pyIsSpace).reverse.dropWhile pyIsSpace).reverse).getLast?.all
    (fun c => !pyIsSpace c) = true
  rw [List.getLast?_reverse]
  cases hh : ((s.data.dropWhile pyIsSpace).reverse.dropWhile pyIsSpace).head? with
  | none => rfl
  | some c =>
    have hc := dropWhile_head?_not pyIsSpace (s.data.dropWhile pyIsSpace).reverse c hh
    simp [Option.all, hc]

/-- C10: a bash-language request is rewritten before being run on the
same kernel as python code — the code is stripped of surrounding
whitespace (the first/last character of the stripped code is never
whitespace), prefixed with the %%bash cell magic when it contains a
newline and with "!" otherwise, and the resulting messages come back with
success=true and HTTP 200 exactly as for python. -/
theorem bash_code_rewriting (run : String → List RawMessage) (req : ExecuteRequest)
    (h : req.language = "bash") :
    execute_code_endpoint run req = (200, ⟨true, run (bashRewriteSpec req.code), none⟩)
    ∧ (pyStrip req.code).data.head?.all (fun c => !pyIsSpace c) = true
    ∧ (pyStrip req.code).data.getLast?.all (fun c => !pyIsSpace c) = true := by
  refine ⟨?_, pyStrip_head_not_space req.code, pyStrip_last_not_space req.code⟩
  unfold execute_code_endpoint
  rw [if_neg (by rw [h]; decide), if_pos h]
  rfl

/-- Witness for C10: the single-line request " ls " is rewritten through
the spec-level description (yielding "!ls") and returned with success. -/
theorem bash_code_rewriting_witness :
    execute_code_endpoint (fun c => [⟨"stream", c, [], []⟩]) ⟨"k", " ls ", "bash"⟩ =
      (200, ⟨true, (fun c => [⟨"stream", c, [], []⟩]) (bashRewriteSpec " ls "), none⟩)
    ∧ (pyStrip " ls ").data.head?.all (fun c => !pyIsSpace c) = true
    ∧ (pyStrip " ls ").data.getLast?.all (fun c => !pyIsSpace c) = true :=
  bash_code_rewriting (fun c => [⟨"stream", c, [], []⟩]) ⟨"k", " ls ", "bash"⟩ rfl

/-! ## Concurrent kernel creation (`KernelManager.get_kernel`)

`get_kernel` runs on a single-threaded asyncio event loop, so code between
two `await` suspension points is atomic.  For one session identifier the
relevant suspension structure of the source is:

* the pool-lock section (`async with self._lock`) contains no `await`, so
  insert-if-absent on the lock map is one atomic step;
* acquiring the per-id lock suspends while the lock is held; once
  acquired, the `kernel_id not in self.kernels` check runs atomically —
  when the kernel is present the read, return and release are likewise
  atomic (no `await` on that path), and when absent the `JupyterKernel()`
  construction is atomic, followed by the suspension points
  `await kernel.start()` and `await kernel.import_libraries(...)`, and
  finally the atomic store + read + release.

A task is a position in `tasks`; a schedule is a list of task indices; a
step of a task blocked on the per-id lock is disabled (`none`). -/

/-- Control state of one task running `get_kernel` for the identifier:
before the pool-lock section, waiting on the per-id lock, inside
`kernel.start()` with its freshly constructed kernel `k`, inside
`import_libraries`, or returned with result `k`. -/
inductive TState where
  | poolWait
  | lockWait
  | creating (k : Nat)
  | importing (k : Nat)
  | done (k : Nat)
deriving DecidableEq

/-- Whether a task holds the per-id lock in its create section. -/
def TState.inCrit : TState → Bool
  | .creating _ => true
  | .importing _ => true
  | _ => false

/-- Whether a task is inside `import_libraries` (its kernel started). -/
def TState.isImporting : TState → Bool
  | .importing _ => true
  | _ => false

/-- Whether a task has returned. -/
def TState.isDone : TState → Bool
  | .done _ => true
  | _ => false

/-- Shared state for one identifier: the task list, whether the lock map
holds the id, the holder of the per-id lock, `self.kernels[kernel_id]`
(kernels stand in as construction serial numbers), and counters of
`JupyterKernel()` constructions and completed `start()` calls. -/
structure C1State where
  tasks : List TState
  lockExists : Bool
  lockOwner : Option Nat
  kernel : Option Nat
  constructed : Nat
  started : Nat
deriving DecidableEq

/-- Initial state: n tasks about to call `get_kernel`, identifier absent
from both maps. -/
def c1init (n : Nat) : C1State :=
  ⟨List.replicate n .poolWait, false, none, none, 0, 0⟩

/-- One atomic step of task `tid`; `none` when the task is blocked on the
per-id lock or already returned. -/
def c1step (s : C1State) (tid : Nat) : Option C1State :=
  match s.tasks[tid]? with
  | some .poolWait =>
    some { s with tasks := s.tasks.set tid .lockWait, lockExists := true }
  | some .lockWait =>
    match s.lockOwner with
    | some _ => none
    | none =>
      match s.kernel with
      | some k => some { s with tasks := s.tasks.set tid (.done k) }
      | none =>
        some { s with tasks := s.tasks.set tid (.creating s.constructed), lockOwner := some tid, constructed := s.constructed + 1 }
  | some (.creating k) =>
    some { s with tasks := s.tasks.set tid (.importing k), started := s.started + 1 }
  | some (.importing k) =>
    some { s with tasks := s.tasks.set tid (.done k), kernel := some k, lockOwner := none }
  | some (.done _) => none
  | none => none

/-- Run a schedule from a state; a schedule naming a blocked or invalid
task aborts (such schedules are not produced by the event loop). -/
def c1run (s : C1State) : List Nat → Option C1State
  | [] => some s
  | tid :: tr =>
    match c1step s tid with
    | some s2 => c1run s2 tr
    | none => none

/-! ## List index helper lemmas -/

lemma getElem?_some_lt {α : Type} (l : List α) (i : Nat) (a : α)
    (h : l[i]? = some a) : i < l.length := by
  by_contra hc
  rw [List.getElem?_eq_none (by omega)] at h
  exact Option.noConfusion h

lemma getElem?_set_self {α : Type} (l : List α) (i : Nat) (a : α) (h : i < l.length) :
    (l.set i a)[i]? = some a := by
  induction l generalizing i with
  | nil => simp at h
  | cons hd tl ih =>
    cases i with
    | zero => rw [List.set_cons_zero, List.getElem?_cons_zero]
    | succ i =>
      rw [List.set_cons_succ, List.getElem?_cons_succ]
      exact ih i (by simp only [List.length_cons] at h; omega)

lemma getElem?_set_other {α : Type} (l : List α) (i j : Nat) (a : α) (h : i ≠ j) :
    (l.set i a)[j]? = l[j]? := by
  induction l generalizing i j with
  | nil => simp
  | cons hd tl ih =>
    cases i with
    | zero =>
      cases j with
      | zero => exact absurd rfl h
      | succ j => rw [List.set_cons_zero, List.getElem?_cons_succ, List.getElem?_cons_succ]
    | succ i =>
      cases j with
      | zero => rw [List.set_cons_succ, List.getElem?_cons_zero, List.getElem?_cons_zero]
      | succ j =>
        rw [List.set_cons_succ, List.getElem?_cons_succ, List.getElem?_cons_succ]
        exact ih i j (by omega)

lemma countP_set_eqn {α : Type} (p : α → Bool) (l : List α) :
    ∀ i a b, l[i]? = some b →
      (l.set i a).countP p + (if p b then 1 else 0) =
        l.countP p + (if p a then 1 else 0) := by
  induction l with
  | nil =>
    intro i a b h
    simp at h
  | cons hd tl ih =>
    intro i a b h
    cases i with
    | zero =>
      have hb : hd = b := by
        rw [List.getElem?_cons_zero] at h
        injection h
      subst hb
      rw [List.set_cons_zero, List.countP_cons, List.countP_cons]
      omega
    | succ i =>
      rw [List.getElem?_cons_succ] at h
      rw [List.set_cons_succ, List.countP_cons, List.countP_cons]
      have := ih i a b h
      omega

/-- Invariant of the creation model: (length bookkeeping;) a task in its
create section holds the per-id lock and the kernel entry is still
absent; the lock holder is in its create section; the construction and
start counters match the kernel entry plus in-flight creators; a returned
task returned exactly the stored kernel. -/
def c1inv (n : Nat) (s : C1State) : Prop :=
  s.tasks.length = n
  ∧ (∀ (tid k : Nat), (s.tasks[tid]? = some (TState.creating k) ∨
      s.tasks[tid]? = some (TState.importing k)) →
    s.lockOwner = some tid ∧ s.kernel = none)
  ∧ (∀ (tid : Nat), s.lockOwner = some tid →
    ∃ k, s.tasks[tid]? = some (TState.creating k) ∨ s.tasks[tid]? = some (TState.importing k))
  ∧ s.constructed = (if s.kernel.isSome then 1 else 0) + s.tasks.countP TState.inCrit
  ∧ s.started = (if s.kernel.isSome then 1 else 0) + s.tasks.countP TState.isImporting
  ∧ (∀ (tid k : Nat), s.tasks[tid]? = some (TState.done k) → s.kernel = some k)

/-- Every step of the creation model preserves the invariant. -/
lemma c1step_inv (n : Nat) (s s2 : C1State) (tid : Nat)
    (hstep : c1step s tid = some s2) (hinv : c1inv n s) : c1inv n s2 := by
  obtain ⟨hlen, h1, h2, h3, h4, h5⟩ := hinv
  unfold c1step at hstep
  cases hts : s.tasks[tid]? with
  | none =>
    rw [hts] at hstep
    exact Option.noConfusion hstep
  | some st =>
    rw [hts] at hstep
    have htid : tid < s.tasks.length := getElem?_some_lt s.tasks tid st hts
    cases st with
    | poolWait =>
      injection hstep with hstep
      have hT : s2.tasks = s.tasks.set tid TState.lockWait := by rw [← hstep]
      have hLO : s2.lockOwner = s.lockOwner := by rw [← hstep]
      have hK : s2.kernel = s.kernel := by rw [← hstep]
      have hC : s2.constructed = s.constructed := by rw [← hstep]
      have hS : s2.started = s.started := by rw [← hstep]
      refine ⟨?_, ?_, ?_, ?_, ?_, ?_⟩
      · rw [hT, List.length_set]
        exact hlen
      · intro tid2 k hcrit
        rw [hT] at hcrit
        rw [hLO, hK]
        by_cases he : tid = tid2
        · subst he
          rw [getElem?_set_self s.tasks tid TState.lockWait htid] at hcrit
          rcases hcrit with hh | hh
          · exact absurd hh (by simp)
          · exact absurd hh (by simp)
        · rw [getElem?_set_other s.tasks tid tid2 TState.lockWait he] at hcrit
          exact h1 tid2 k hcrit
      · intro tid2 howner
        rw [hLO] at howner
        obtain ⟨k, hk⟩ := h2 tid2 howner
        have hne : tid ≠ tid2 := by
          intro he
          rw [← he, hts] at hk
          rcases hk with hh | hh
          · exact absurd hh (by simp)
          · exact absurd hh (by simp)
        refine ⟨k, ?_⟩
        rw [hT, getElem?_set_other s.tasks tid tid2 TState.lockWait hne]
        exact hk
      · rw [hC, hK, hT]
        have hc := countP_set_eqn TState.inCrit s.tasks tid TState.lockWait TState.poolWait hts
        simp [TState.inCrit] at hc
        rw [h3, hc]
      · rw [hS, hK, hT]
        have hc := countP_set_eqn TState.isImporting s.tasks tid TState.lockWait TState.poolWait hts
        simp [TState.isImporting] at hc
        rw [h4, hc]
      · intro tid2 k hdone2
        rw [hT] at hdone2
        rw [hK]
        by_cases he : tid = tid2
        · subst he
          rw [getElem?_set_self s.tasks tid TState.lockWait htid] at hdone2
          exact absurd hdone2 (by simp)
        · rw [getElem?_set_other s.tasks tid tid2 TState.lockWait he] at hdone2
          exact h5 tid2 k hdone2
    | lockWait =>
      cases hlo : s.lockOwner with
      | some owner =>
        rw [hlo] at hstep
        exact Option.noConfusion hstep
      | none =>
        rw [hlo] at hstep
        cases hker : s.kernel with
        | some k0 =>
          rw [hker] at hstep
          injection hstep with hstep
          have hT : s2.tasks = s.tasks.set tid (TState.done k0) := by rw [← hstep]
          have hLO : s2.lockOwner = none := by rw [← hstep]
          have hK : s2.kernel = some k0 := by rw [← hstep]
          have hC : s2.constructed = s.constructed := by rw [← hstep]
          have hS : s2.started = s.started := by rw [← hstep]
          refine ⟨?_, ?_, ?_, ?_, ?_, ?_⟩
          · rw [hT, List.length_set]
            exact hlen
          · intro tid2 k hcrit
            rw [hT] at hcrit
            by_cases he : tid = tid2
            · subst he
              rw [getElem?_set_self s.tasks tid (TState.done k0) htid] at hcrit
              rcases hcrit with hh | hh
              · exact absurd hh (by simp)
              · exact absurd hh (by simp)
            · rw [getElem?_set_other s.tasks tid tid2 (TState.done k0) he] at hcrit
              obtain ⟨ho, _⟩ := h1 tid2 k hcrit
              rw [hlo] at ho
              exact absurd ho (by simp)
          · intro tid2 howner
            rw [hLO] at howner
            exact absurd howner (by simp)
          · rw [hC, hK, hT]
            have hc := countP_set_eqn TState.inCrit s.tasks tid (TState.done k0) TState.lockWait hts
            simp [TState.inCrit] at hc
            rw [hker] at h3
            rw [h3, hc]
          · rw [hS, hK, hT]
            have hc := countP_set_eqn TState.isImporting s.tasks tid (TState.done k0) TState.lockWait hts
            simp [TState.isImporting] at hc
            rw [hker] at h4
            rw [h4, hc]
          · intro tid2 k hdone2
            rw [hT] at hdone2
            rw [hK]
            by_cases he : tid = tid2
            · subst he
              rw [getElem?_set_self s.tasks tid (TState.done k0) htid] at hdone2
              have h6 : TState.done k0 = TState.done k := by injection hdone2
              have h7 : k0 = k := by injection h6
              rw [h7]
            · rw [getElem?_set_other s.tasks tid tid2 (TState.done k0) he] at hdone2
              have hk5 := h5 tid2 k hdone2
              rw [hker] at hk5
              exact hk5
        | none =>
          rw [hker] at hstep
          injection hstep with hstep
          have hT : s2.tasks = s.tasks.set tid (TState.creating s.constructed) := by rw [← hstep]
          have hLO : s2.lockOwner = some tid := by rw [← hstep]
          have hK : s2.kernel = none := by rw [← hstep]
          have hC : s2.constructed = s.constructed + 1 := by rw [← hstep]
          have hS : s2.started = s.started := by rw [← hstep]
          refine ⟨?_, ?_, ?_, ?_, ?_, ?_⟩
          · rw [hT, List.length_set]
            exact hlen
          · intro tid2 k hcrit
            rw [hT] at hcrit
            by_cases he : tid = tid2
            · subst he
              rw [hLO, hK]
              exact ⟨rfl, rfl⟩
            · rw [getElem?_set_other s.tasks tid tid2 (TState.creating s.constructed) he] at hcrit
              obtain ⟨ho, _⟩ := h1 tid2 k hcrit
              rw [hlo] at ho
              exact absurd ho (by simp)
          · intro tid2 howner
            rw [hLO] at howner
            have he : tid = tid2 := by injection howner
            subst he
            refine ⟨s.constructed, Or.inl ?_⟩
            rw [hT]
            exact getElem?_set_self s.tasks tid (TState.creating s.constructed) htid
          · rw [hC, hK, hT]
            have hc := countP_set_eqn TState.inCrit s.tasks tid (TState.creating s.constructed)
              TState.lockWait hts
            simp [TState.inCrit] at hc
            rw [hker] at h3
            simp only [Option.isSome_none, Bool.false_eq_true, if_false, Nat.zero_add] at h3 ⊢
            omega
          · rw [hS, hK, hT]
            have hc := countP_set_eqn TState.isImporting s.tasks tid (TState.creating s.constructed)
              TState.lockWait hts
            simp [TState.isImporting] at hc
            rw [hker] at h4
            simp only [Option.isSome_none, Bool.false_eq_true, if_false, Nat.zero_add] at h4 ⊢
            omega
          · intro tid2 k hdone2
            rw [hT] at hdone2
            by_cases he : tid = tid2
            · subst he
              rw [getElem?_set_self s.tasks tid (TState.creating s.constructed) htid] at hdone2
              exact absurd hdone2 (by simp)
            · rw [getElem?_set_other s.tasks tid tid2 (TState.creating s.constructed) he] at hdone2
              have hk5 := h5 tid2 k hdone2
              rw [hker] at hk5
              exact absurd hk5 (by simp)
    | creating k =>
      injection hstep with hstep
      have hT : s2.tasks = s.tasks.set tid (TState.importing k) := by rw [← hstep]
      have hLO : s2.lockOwner = s.lockOwner := by rw [← hstep]
      have hK : s2.kernel = s.kernel := by rw [← hstep]
      have hC : s2.constructed = s.constructed := by rw [← hstep]
      have hS : s2.started = s.started + 1 := by rw [← hstep]
      obtain ⟨howner, hkern⟩ := h1 tid k (Or.inl hts)
      refine ⟨?_, ?_, ?_, ?_, ?_, ?_⟩
      · rw [hT, List.length_set]
        exact hlen
      · intro tid2 k2 hcrit
        rw [hT] at hcrit
        rw [hLO, hK]
        by_cases he : tid = tid2
        · subst he
          exact ⟨howner, hkern⟩
        · rw [getElem?_set_other s.tasks tid tid2 (TState.importing k) he] at hcrit
          exact h1 tid2 k2 hcrit
      · intro tid2 howner2
        rw [hLO] at howner2
        rw [howner] at howner2
        have he : tid = tid2 := by injection howner2
        subst he
        refine ⟨k, Or.inr ?_⟩
        rw [hT]
        exact getElem?_set_self s.tasks tid (TState.importing k) htid
      · rw [hC, hK, hT]
        have hc := countP_set_eqn TState.inCrit s.tasks tid (TState.importing k)
          (TState.creating k) hts
        simp [TState.inCrit] at hc
        rw [h3, hc]
      · rw [hS, hK, hT]
        have hc := countP_set_eqn TState.isImporting s.tasks tid (TState.importing k)
          (TState.creating k) hts
        simp [TState.isImporting] at hc
        rw [h4]
        omega
      · intro tid2 k2 hdone2
        rw [hT] at hdone2
        by_cases he : tid = tid2
        · subst he
          rw [getElem?_set_self s.tasks tid (TState.importing k) htid] at hdone2
          exact absurd hdone2 (by simp)
        · rw [getElem?_set_other s.tasks tid tid2 (TState.importing k) he] at hdone2
          have hk5 := h5 tid2 k2 hdone2
          rw [hkern] at hk5
          exact absurd hk5 (by simp)
    | importing k =>
      injection hstep with hstep
      have hT : s2.tasks = s.tasks.set tid (TState.done k) := by rw [← hstep]
      have hLO : s2.lockOwner = none := by rw [← hstep]
      have hK : s2.kernel = some k := by rw [← hstep]
      have hC : s2.constructed = s.constructed := by rw [← hstep]
      have hS : s2.started = s.started := by rw [← hstep]
      obtain ⟨howner, hkern⟩ := h1 tid k (Or.inr hts)
      refine ⟨?_, ?_, ?_, ?_, ?_, ?_⟩
      · rw [hT, List.length_set]
        exact hlen
      · intro tid2 k2 hcrit
        rw [hT] at hcrit
        by_cases he : tid = tid2
        · subst he
          rw [getElem?_set_self s.tasks tid (TState.done k) htid] at hcrit
          rcases hcrit with hh | hh
          · exact absurd hh (by simp)
          · exact absurd hh (by simp)
        · rw [getElem?_set_other s.tasks tid tid2 (TState.done k) he] at hcrit
          obtain ⟨ho2, _⟩ := h1 tid2 k2 hcrit
          rw [howner] at ho2
          have : tid = tid2 := by injection ho2
          exact absurd this he
      · intro tid2 ho
        rw [hLO] at ho
        exact absurd ho (by simp)
      · rw [hC, hK, hT]
        have hc := countP_set_eqn TState.inCrit s.tasks tid (TState.done k)
          (TState.importing k) hts
        simp [TState.inCrit] at hc
        rw [hkern] at h3
        simp only [Option.isSome_none, Bool.false_eq_true, if_false, Nat.zero_add] at h3
        simp only [Option.isSome_some, if_true]
        omega
      · rw [hS, hK, hT]
        have hc := countP_set_eqn TState.isImporting s.tasks tid (TState.done k)
          (TState.importing k) hts
        simp [TState.isImporting] at hc
        rw [hkern] at h4
        simp only [Option.isSome_none, Bool.false_eq_true, if_false, Nat.zero_add] at h4
        simp only [Option.isSome_some, if_true]
        omega
      · intro tid2 k2 hdone2
        rw [hT] at hdone2
        rw [hK]
        by_cases he : tid = tid2
        · subst he
          rw [getElem?_set_self s.tasks tid (TState.done k) htid] at hdone2
          have h6 : TState.done k = TState.done k2 := by injection hdone2
          have h7 : k = k2 := by injection h6
          rw [h7]
        · rw [getElem?_set_other s.tasks tid tid2 (TState.done k) he] at hdone2
          have hk5 := h5 tid2 k2 hdone2
          rw [hkern] at hk5
          exact absurd hk5 (by simp)
    | done k =>
      exact Option.noConfusion hstep

lemma replicate_getElem?_eq {α : Type} (n i : Nat) (a b : α)
    (h : (List.replicate n a)[i]? = some b) : b = a := by
  rw [List.getElem?_replicate] at h
  split at h
  · injection h with h
    exact h.symm
  · exact Option.noConfusion h

lemma mem_of_getElem?_some {α : Type} (l : List α) (i : Nat) (a : α)
    (h : l[i]? = some a) : a ∈ l := by
  induction l generalizing i with
  | nil => simp at h
  | cons hd tl ih =>
    cases i with
    | zero =>
      rw [List.getElem?_cons_zero] at h
      injection h with h
      rw [← h]
      exact List.mem_cons_self hd tl
    | succ i =>
      rw [List.getElem?_cons_succ] at h
      exact List.mem_cons_of_mem hd (ih i h)

lemma getElem?_some_of_mem {α : Type} (l : List α) (a : α) (h : a ∈ l) :
    ∃ i : Nat, l[i]? = some a := by
  induction l with
  | nil => simp at h
  | cons hd tl ih =>
    rcases List.mem_cons.mp h with rfl | hmem
    · exact ⟨0, List.getElem?_cons_zero⟩
    · obtain ⟨i, hi⟩ := ih hmem
      exact ⟨i + 1, by rw [List.getElem?_cons_succ]; exact hi⟩

/-- The initial state satisfies the invariant. -/
lemma c1init_inv (n : Nat) : c1inv n (c1init n) := by
  refine ⟨by simp [c1init], ?_, ?_, ?_, ?_, ?_⟩
  · intro tid k h
    rcases h with hh | hh
    · exact absurd (replicate_getElem?_eq n tid TState.poolWait _ hh) (by simp)
    · exact absurd (replicate_getElem?_eq n tid TState.poolWait _ hh) (by simp)
  · intro tid h
    exact absurd h (by simp [c1init])
  · have hz : List.countP TState.inCrit (List.replicate n TState.poolWait) = 0 := by
      apply List.countP_eq_zero.mpr
      intro a ha
      rw [List.eq_of_mem_replicate ha]
      simp [TState.inCrit]
    show (0 : Nat) = (if (none : Option Nat).isSome = true then 1 else 0) +
      List.countP TState.inCrit (List.replicate n TState.poolWait)
    rw [hz]
    simp
  · have hz : List.countP TState.isImporting (List.replicate n TState.poolWait) = 0 := by
      apply List.countP_eq_zero.mpr
      intro a ha
      rw [List.eq_of_mem_replicate ha]
      simp [TState.isImporting]
    show (0 : Nat) = (if (none : Option Nat).isSome = true then 1 else 0) +
      List.countP TState.isImporting (List.replicate n TState.poolWait)
    rw [hz]
    simp
  · intro tid k h
    exact absurd (replicate_getElem?_eq n tid TState.poolWait _ h) (by simp)

/-- Running any schedule preserves the invariant. -/
lemma c1run_inv (n : Nat) : ∀ (tr : List Nat) (s s2 : C1State),
    c1run s tr = some s2 → c1inv n s → c1inv n s2 := by
  intro tr
  induction tr with
  | nil =>
    intro s s2 h hinv
    unfold c1run at h
    injection h with h
    rw [← h]
    exact hinv
  | cons tid tr ih =>
    intro s s2 h hinv
    unfold c1run at h
    cases hstep : c1step s tid with
    | none =>
      rw [hstep] at h
      exact Option.noConfusion h
    | some s1 =>
      rw [hstep] at h
      exact ih s1 s2 h (c1step_inv n s s1 tid hstep hinv)

/-- C1: if N tasks concurrently call `get_kernel` with the same identifier
while it is absent from the pool, then under every schedule after which
all N calls have returned, exactly one kernel was constructed, exactly
one was started, and every call returned that same kernel (the one stored
in the pool). -/
theorem get_kernel_unique_creation (n : Nat) (tr : List Nat) (s : C1State)
    (hrun : c1run (c1init n) tr = some s)
    (hdone : ∀ st ∈ s.tasks, st.isDone = true) (hn : 0 < n) :
    s.constructed = 1 ∧ s.started = 1 ∧
      ∃ k, s.kernel = some k ∧ ∀ st ∈ s.tasks, st = TState.done k := by
  obtain ⟨hlen, h1, h2, h3, h4, h5⟩ := c1run_inv n tr (c1init n) s hrun (c1init_inv n)
  obtain ⟨st0, hst0⟩ : ∃ st, s.tasks[0]? = some st := by
    cases hts : s.tasks with
    | nil =>
      rw [hts] at hlen
      simp at hlen
      omega
    | cons a l => exact ⟨a, List.getElem?_cons_zero⟩
  have hd0 := hdone st0 (mem_of_getElem?_some s.tasks 0 st0 hst0)
  cases st0 with
  | poolWait => simp [TState.isDone] at hd0
  | lockWait => simp [TState.isDone] at hd0
  | creating k => simp [TState.isDone] at hd0
  | importing k => simp [TState.isDone] at hd0
  | done k0 =>
    have hker := h5 0 k0 hst0
    have hcrit0 : List.countP TState.inCrit s.tasks = 0 := by
      apply List.countP_eq_zero.mpr
      intro a ha
      have hda := hdone a ha
      cases a <;> simp_all [TState.isDone, TState.inCrit]
    have himp0 : List.countP TState.isImporting s.tasks = 0 := by
      apply List.countP_eq_zero.mpr
      intro a ha
      have hda := hdone a ha
      cases a <;> simp_all [TState.isDone, TState.isImporting]
    refine ⟨?_, ?_, k0, hker, ?_⟩
    · rw [h3, hker, hcrit0]
      simp
    · rw [h4, hker, himp0]
      simp
    · intro st hmem
      have hda := hdone st hmem
      obtain ⟨i, hi⟩ := getElem?_some_of_mem s.tasks st hmem
      cases st with
      | poolWait => simp [TState.isDone] at hda
      | lockWait => simp [TState.isDone] at hda
      | creating k => simp [TState.isDone] at hda
      | importing k => simp [TState.isDone] at hda
      | done k2 =>
        have hk2 := h5 i k2 hi
        rw [hker] at hk2
        have h7 : k0 = k2 := by injection hk2
        rw [h7]

/-- Witness for C1: two tasks, a schedule where task 0 creates the kernel
while task 1 first blocks on the per-id lock and then takes the fast
path; one construction, one start, both calls return kernel 0. -/
theorem get_kernel_unique_creation_witness :
    (⟨[TState.done 0, TState.done 0], true, none, some 0, 1, 1⟩ : C1State).constructed = 1 ∧
    (⟨[TState.done 0, TState.done 0], true, none, some 0, 1, 1⟩ : C1State).started = 1 ∧
    ∃ k, (⟨[TState.done 0, TState.done 0], true, none, some 0, 1, 1⟩ : C1State).kernel = some k ∧
      ∀ st ∈ (⟨[TState.done 0, TState.done 0], true, none, some 0, 1, 1⟩ : C1State).tasks,
        st = TState.done k :=
  get_kernel_unique_creation 2 [0, 1, 0, 0, 0, 1]
    ⟨[TState.done 0, TState.done 0], true, none, some 0, 1, 1⟩
    (by decide) (by decide) (by decide)

/-! ## Execution serialization (`JupyterKernel.execute_raw`)

`execute_raw` serializes executions on one kernel with
`self._execution_lock`.  Acquiring the lock and sending the code
(`self.kc.execute(code)`) run without an intervening `await`, so they form
one atomic step enabled only while the lock is free; each
`await self.kc.get_iopub_msg()` is a suspension at which the next raw
message is observed (the scheduler chooses whether it is the terminating
idle status message) or the task is cancelled (`asyncio.CancelledError`,
which ends the generator and releases the lock via the `async with`).
The channel history is recorded as an ordered event log: `send t` when
task t submits code, `output t` when t observes a non-idle message,
`idleObs t` when t observes the terminating idle status, `cancel t` when
t is cancelled mid-read. -/

/-- Control state of one task calling `execute_raw` on the session. -/
inductive EState where
  | ready
  | reading
  | finished
  | cancelled
deriving DecidableEq

/-- One observable channel event of the session, tagged by task. -/
inductive C2Ev where
  | send (tid : Nat)
  | output (tid : Nat)
  | idleObs (tid : Nat)
  | cancel (tid : Nat)
deriving DecidableEq

/-- A scheduler choice for a task: start executing (acquire + send),
receive a message (idle or not), or cancel the in-flight read. -/
inductive C2Act where
  | startExec
  | recvMsg (isIdle : Bool)
  | cancelExec
deriving DecidableEq

/-- Shared state: the tasks, the holder of `_execution_lock`, and the
ordered event log of the kernel channel. -/
structure C2State where
  tasks : List EState
  lockOwner : Option Nat
  log : List C2Ev
deriving DecidableEq

/-- Initial state: n tasks each about to call `execute_raw`. -/
def c2init (n : Nat) : C2State := ⟨List.replicate n .ready, none, []⟩

/-- One atomic step of task `tid` performing action `a`; `none` when the
action is not enabled (task blocked on the lock or already ended). -/
def c2step (s : C2State) (tid : Nat) (a : C2Act) : Option C2State :=
  match s.tasks[tid]?, a with
  | some .ready, .startExec =>
    match s.lockOwner with
    | none => some ⟨s.tasks.set tid .reading, some tid, s.log ++ [.send tid]⟩
    | some _ => none
  | some .reading, .recvMsg b =>
    if b then some ⟨s.tasks.set tid .finished, none, s.log ++ [.idleObs tid]⟩
    else some ⟨s.tasks, s.lockOwner, s.log ++ [.output tid]⟩
  | some .reading, .cancelExec =>
    some ⟨s.tasks.set tid .cancelled, none, s.log ++ [.cancel tid]⟩
  | _, _ => none

/-- Run a schedule of (task, action) choices. -/
def c2run (s : C2State) : List (Nat × C2Act) → Option C2State
  | [] => some s
  | (tid, a) :: tr =>
    match c2step s tid a with
    | some s2 => c2run s2 tr
    | none => none

/-- Invariant of the serialization model: the lock holder is exactly the
reading task, and every `send` in the log is either closed — followed,
after only its own outputs, by its own terminating idle observation or
cancellation — or still open, in which case its sender holds the lock and
everything after the send is its own output. -/
def c2inv (s : C2State) : Prop :=
  (∀ t : Nat, s.lockOwner = some t → s.tasks[t]? = some EState.reading)
  ∧ (∀ t : Nat, s.tasks[t]? = some EState.reading → s.lockOwner = some t)
  ∧ (∀ (i t : Nat), s.log[i]? = some (C2Ev.send t) →
      (∃ k : Nat, i < k ∧ k < s.log.length ∧
        (s.log[k]? = some (C2Ev.idleObs t) ∨ s.log[k]? = some (C2Ev.cancel t)) ∧
        ∀ m : Nat, i < m → m < k → s.log[m]? = some (C2Ev.output t))
      ∨ (s.lockOwner = some t ∧
        ∀ m : Nat, i < m → m < s.log.length → s.log[m]? = some (C2Ev.output t)))

/-- Every step of the serialization model preserves the invariant. -/
lemma c2step_inv (s s2 : C2State) (tid : Nat) (a : C2Act)
    (hstep : c2step s tid a = some s2) (hinv : c2inv s) : c2inv s2 := by
  obtain ⟨h1, h2, h3⟩ := hinv
  unfold c2step at hstep
  cases hts : s.tasks[tid]? with
  | none =>
    rw [hts] at hstep
    cases a <;> exact Option.noConfusion hstep
  | some st =>
    rw [hts] at hstep
    have htid : tid < s.tasks.length := getElem?_some_lt s.tasks tid st hts
    cases st with
    | ready =>
      cases a with
      | recvMsg b => exact Option.noConfusion hstep
      | cancelExec => exact Option.noConfusion hstep
      | startExec =>
        cases hlo : s.lockOwner with
        | some o =>
          rw [hlo] at hstep
          exact Option.noConfusion hstep
        | none =>
          rw [hlo] at hstep
          injection hstep with hstep
          have hT : s2.tasks = s.tasks.set tid EState.reading := by rw [← hstep]
          have hLO : s2.lockOwner = some tid := by rw [← hstep]
          have hL : s2.log = s.log ++ [C2Ev.send tid] := by rw [← hstep]
          refine ⟨?_, ?_, ?_⟩
          · intro t h
            rw [hLO] at h
            have he : tid = t := by injection h
            subst he
            rw [hT]
            exact getElem?_set_self s.tasks tid EState.reading htid
          · intro t h
            rw [hT] at h
            rw [hLO]
            by_cases he : tid = t
            · rw [he]
            · rw [getElem?_set_other s.tasks tid t EState.reading he] at h
              have h2t := h2 t h
              rw [hlo] at h2t
              exact absurd h2t (by simp)
          · intro i t hsend
            rw [hL] at hsend ⊢
            rw [hLO]
            by_cases hi : i < s.log.length
            · rw [List.getElem?_append_left hi] at hsend
              rcases h3 i t hsend with ⟨k, hik, hklen, hrel, hgap⟩ | ⟨ho, _⟩
              · left
                refine ⟨k, hik, by simp; omega, ?_, ?_⟩
                · rcases hrel with hr | hr
                  · exact Or.inl (by rw [List.getElem?_append_left hklen]; exact hr)
                  · exact Or.inr (by rw [List.getElem?_append_left hklen]; exact hr)
                · intro m him hmk
                  rw [List.getElem?_append_left (by omega)]
                  exact hgap m him hmk
              · rw [hlo] at ho
                exact absurd ho (by simp)
            · have hilen : i < (s.log ++ [C2Ev.send tid]).length :=
                getElem?_some_lt _ i _ hsend
              have hi2 : i = s.log.length := by
                simp only [List.length_append, List.length_cons, List.length_nil] at hilen
                omega
              subst hi2
              rw [List.getElem?_concat_length] at hsend
              have he : tid = t := by
                have h6 : C2Ev.send tid = C2Ev.send t := by injection hsend
                injection h6
              right
              refine ⟨by rw [he], ?_⟩
              intro m hm hmlen
              simp only [List.length_append, List.length_cons, List.length_nil] at hmlen
              omega
    | reading =>
      have howner := h2 tid hts
      cases a with
      | startExec =>
        cases hlo2 : s.lockOwner with
        | some o =>
          rw [hlo2] at hstep
          exact Option.noConfusion hstep
        | none =>
          rw [howner] at hlo2
          exact Option.noConfusion hlo2
      | recvMsg b =>
        cases b with
        | true =>
          injection hstep with hstep
          have hT : s2.tasks = s.tasks.set tid EState.finished := by rw [← hstep]
          have hLO : s2.lockOwner = none := by rw [← hstep]
          have hL : s2.log = s.log ++ [C2Ev.idleObs tid] := by rw [← hstep]
          refine ⟨?_, ?_, ?_⟩
          · intro t h
            rw [hLO] at h
            exact absurd h (by simp)
          · intro t h
            rw [hT] at h
            by_cases he : tid = t
            · subst he
              rw [getElem?_set_self s.tasks tid EState.finished htid] at h
              exact absurd h (by simp)
            · rw [getElem?_set_other s.tasks tid t EState.finished he] at h
              have h2t := h2 t h
              rw [howner] at h2t
              have : tid = t := by injection h2t
              exact absurd this he
          · intro i t hsend
            rw [hL] at hsend ⊢
            by_cases hi : i < s.log.length
            · rw [List.getElem?_append_left hi] at hsend
              rcases h3 i t hsend with ⟨k, hik, hklen, hrel, hgap⟩ | ⟨ho, hopen⟩
              · left
                refine ⟨k, hik, by simp; omega, ?_, ?_⟩
                · rcases hrel with hr | hr
                  · exact Or.inl (by rw [List.getElem?_append_left hklen]; exact hr)
                  · exact Or.inr (by rw [List.getElem?_append_left hklen]; exact hr)
                · intro m him hmk
                  rw [List.getElem?_append_left (by omega)]
                  exact hgap m him hmk
              · have htt : tid = t := by
                  rw [howner] at ho
                  injection ho
                left
                refine ⟨s.log.length, by omega, by simp, ?_, ?_⟩
                · exact Or.inl (by rw [List.getElem?_concat_length, htt])
                · intro m him hmk
                  rw [List.getElem?_append_left hmk]
                  exact hopen m him hmk
            · have hilen : i < (s.log ++ [C2Ev.idleObs tid]).length :=
                getElem?_some_lt _ i _ hsend
              have hi2 : i = s.log.length := by
                simp only [List.length_append, List.length_cons, List.length_nil] at hilen
                omega
              subst hi2
              rw [List.getElem?_concat_length] at hsend
              exact absurd hsend (by simp)
        | false =>
          injection hstep with hstep
          have hT : s2.tasks = s.tasks := by rw [← hstep]
          have hLO : s2.lockOwner = s.lockOwner := by rw [← hstep]
          have hL : s2.log = s.log ++ [C2Ev.output tid] := by rw [← hstep]
          refine ⟨?_, ?_, ?_⟩
          · intro t h
            rw [hLO] at h
            rw [hT]
            exact h1 t h
          · intro t h
            rw [hT] at h
            rw [hLO]
            exact h2 t h
          · intro i t hsend
            rw [hL] at hsend ⊢
            rw [hLO]
            by_cases hi : i < s.log.length
            · rw [List.getElem?_append_left hi] at hsend
              rcases h3 i t hsend with ⟨k, hik, hklen, hrel, hgap⟩ | ⟨ho, hopen⟩
              · left
                refine ⟨k, hik, by simp; omega, ?_, ?_⟩
                · rcases hrel with hr | hr
                  · exact Or.inl (by rw [List.getElem?_append_left hklen]; exact hr)
                  · exact Or.inr (by rw [List.getElem?_append_left hklen]; exact hr)
                · intro m him hmk
                  rw [List.getElem?_append_left (by omega)]
                  exact hgap m him hmk
              · right
                refine ⟨ho, ?_⟩
                intro m him hmlen
                by_cases hm : m < s.log.length
                · rw [List.getElem?_append_left hm]
                  exact hopen m him hm
                · have hm2 : m = s.log.length := by
                    simp only [List.length_append, List.length_cons, List.length_nil] at hmlen
                    omega
                  subst hm2
                  rw [List.getElem?_concat_length]
                  have htt : tid = t := by
                    rw [howner] at ho
                    injection ho
                  rw [htt]
            · have hilen : i < (s.log ++ [C2Ev.output tid]).length :=
                getElem?_some_lt _ i _ hsend
              have hi2 : i = s.log.length := by
                simp only [List.length_append, List.length_cons, List.length_nil] at hilen
                omega
              subst hi2
              rw [List.getElem?_concat_length] at hsend
              exact absurd hsend (by simp)
      | cancelExec =>
        injection hstep with hstep
        have hT : s2.tasks = s.tasks.set tid EState.cancelled := by rw [← hstep]
        have hLO : s2.lockOwner = none := by rw [← hstep]
        have hL : s2.log = s.log ++ [C2Ev.cancel tid] := by rw [← hstep]
        refine ⟨?_, ?_, ?_⟩
        · intro t h
          rw [hLO] at h
          exact absurd h (by simp)
        · intro t h
          rw [hT] at h
          by_cases he : tid = t
          · subst he
            rw [getElem?_set_self s.tasks tid EState.cancelled htid] at h
            exact absurd h (by simp)
          · rw [getElem?_set_other s.tasks tid t EState.cancelled he] at h
            have h2t := h2 t h
            rw [howner] at h2t
            have : tid = t := by injection h2t
            exact absurd this he
        · intro i t hsend
          rw [hL] at hsend ⊢
          by_cases hi : i < s.log.length
          · rw [List.getElem?_append_left hi] at hsend
            rcases h3 i t hsend with ⟨k, hik, hklen, hrel, hgap⟩ | ⟨ho, hopen⟩
            · left
              refine ⟨k, hik, by simp; omega, ?_, ?_⟩
              · rcases hrel with hr | hr
                · exact Or.inl (by rw [List.getElem?_append_left hklen]; exact hr)
                · exact Or.inr (by rw [List.getElem?_append_left hklen]; exact hr)
              · intro m him hmk
                rw [List.getElem?_append_left (by omega)]
                exact hgap m him hmk
            · have htt : tid = t := by
                rw [howner] at ho
                injection ho
              left
              refine ⟨s.log.length, by omega, by simp, ?_, ?_⟩
              · exact Or.inr (by rw [List.getElem?_concat_length, htt])
              · intro m him hmk
                rw [List.getElem?_append_left hmk]
                exact hopen m him hmk
          · have hilen : i < (s.log ++ [C2Ev.cancel tid]).length :=
              getElem?_some_lt _ i _ hsend
            have hi2 : i = s.log.length := by
              simp only [List.length_append, List.length_cons, List.length_nil] at hilen
              omega
            subst hi2
            rw [List.getElem?_concat_length] at hsend
            exact absurd hsend (by simp)
    | finished =>
      cases a <;> exact Option.noConfusion hstep
    | cancelled =>
      cases a <;> exact Option.noConfusion hstep

/-- The initial state of the serialization model satisfies its
invariant. -/
lemma c2init_inv (n : Nat) : c2inv (c2init n) := by
  refine ⟨?_, ?_, ?_⟩
  · intro t h
    exact absurd h (by simp [c2init])
  · intro t h
    exact absurd (replicate_getElem?_eq n t EState.ready _ h) (by simp)
  · intro i t h
    exact absurd h (by simp [c2init])

/-- Running any schedule preserves the serialization invariant. -/
lemma c2run_inv : ∀ (tr : List (Nat × C2Act)) (s s2 : C2State),
    c2run s tr = some s2 → c2inv s → c2inv s2 := by
  intro tr
  induction tr with
  | nil =>
    intro s s2 h hinv
    unfold c2run at h
    injection h with h
    rw [← h]
    exact hinv
  | cons pa tr ih =>
    obtain ⟨tid, a⟩ := pa
    intro s s2 h hinv
    unfold c2run at h
    cases hstep : c2step s tid a with
    | none =>
      rw [hstep] at h
      exact Option.noConfusion h
    | some s1 =>
      rw [hstep] at h
      exact ih s1 s2 h (c2step_inv s s1 tid a hstep hinv)

/-- C2: on one session, executions never interleave — under every
schedule, whenever the log records two code submissions at positions
i < j, the first submitter's terminating idle observation or cancellation
lies strictly between them, and every event between the first submission
and that terminating event belongs to the first execution.  In
particular a second `execute` begins sending its code only after the
first call's terminating idle status was observed or the first call was
cancelled. -/
theorem execute_serialization (n : Nat) (tr : List (Nat × C2Act)) (s : C2State)
    (hrun : c2run (c2init n) tr = some s)
    (i j t1 t2 : Nat) (hij : i < j)
    (hi : s.log[i]? = some (C2Ev.send t1)) (hj : s.log[j]? = some (C2Ev.send t2)) :
    ∃ k : Nat, i < k ∧ k < j ∧
      (s.log[k]? = some (C2Ev.idleObs t1) ∨ s.log[k]? = some (C2Ev.cancel t1)) ∧
      ∀ m : Nat, i < m → m < k → s.log[m]? = some (C2Ev.output t1) := by
  obtain ⟨h1, h2, h3⟩ := c2run_inv tr (c2init n) s hrun (c2init_inv n)
  have hjlen : j < s.log.length := getElem?_some_lt s.log j _ hj
  rcases h3 i t1 hi with ⟨k, hik, hklen, hrel, hgap⟩ | ⟨ho, hopen⟩
  · rcases Nat.lt_trichotomy k j with hkj | hkj | hkj
    · exact ⟨k, hik, hkj, hrel, hgap⟩
    · subst hkj
      rcases hrel with hr | hr
      · rw [hj] at hr
        exact absurd hr (by simp)
      · rw [hj] at hr
        exact absurd hr (by simp)
    · have := hgap j hij hkj
      rw [hj] at this
      exact absurd this (by simp)
  · have := hopen j hij hjlen
    rw [hj] at this
    exact absurd this (by simp)

/-- Witness for C2: two tasks on one session; task 0 sends, produces one
output, observes idle, then task 1 sends; between the two sends (log
positions 0 and 3) lies task 0's idle observation. -/
theorem execute_serialization_witness :
    ∃ k : Nat, 0 < k ∧ k < 3 ∧
      ((⟨[EState.finished, EState.finished], none,
          [C2Ev.send 0, C2Ev.output 0, C2Ev.idleObs 0, C2Ev.send 1, C2Ev.idleObs 1]⟩ :
          C2State).log[k]? = some (C2Ev.idleObs 0) ∨
        (⟨[EState.finished, EState.finished], none,
          [C2Ev.send 0, C2Ev.output 0, C2Ev.idleObs 0, C2Ev.send 1, C2Ev.idleObs 1]⟩ :
          C2State).log[k]? = some (C2Ev.cancel 0)) ∧
      ∀ m : Nat, 0 < m → m < k →
        (⟨[EState.finished, EState.finished], none,
          [C2Ev.send 0, C2Ev.output 0, C2Ev.idleObs 0, C2Ev.send 1, C2Ev.idleObs 1]⟩ :
          C2State).log[m]? = some (C2Ev.output 0) :=
  execute_serialization 2
    [(0, C2Act.startExec), (0, C2Act.recvMsg false), (0, C2Act.recvMsg true),
      (1, C2Act.startExec), (1, C2Act.recvMsg true)]
    ⟨[EState.finished, EState.finished], none,
      [C2Ev.send 0, C2Ev.output 0, C2Ev.idleObs 0, C2Ev.send 1, C2Ev.idleObs 1]⟩
    (by decide) 0 3 0 1 (by decide) (by decide) (by decide)
